import Mathlib

/-!
Verification development for libhash (`src/trunk/src/hash.c`, `src/src/hash.h`):
a generic chained hash table over `{key, yield}` items, with pluggable hash
strategies (LCG, Zobrist, keyed MD5) and connection-5-tuple canonicalization.

Shallow embedding conventions:
* `uint32_t` arithmetic is `Nat` with explicit `% 2 ^ 32` where overflow matters.
* `char` is signed on the platforms this code targets (x86 Linux, 2008-era gcc),
  so a marshalled key byte `b` read through `char *` has integer value
  `b` when `b < 128` and `b - 256` otherwise (`scharVal`).
* Bucket chains are doubly linked in C; unlink-by-handle on such chains is
  list filtering, so a chain is a `List` and the chain operations are list
  operations.  A pointer to a live item is modelled as a
  (bucket index, chain position) pair.
* Out-of-bounds reads of the bucket array are made observable: reads that the
  C code performs without a range guard go through `List.get?`.
* The per-table dispatch record (`ho[ht->key].cmp`, `ho[ht->yield].cmp`,
  `ht->hf->hash`) is a `HashCtx` parameter.
* `max_bucket_occupancy_ratio` is a C `float`; it is embedded as `ℚ`
  (every float value is rational; the ratios exercised here, e.g. `1/2`,
  and the small operand counts make the float comparisons exact).
-/

namespace LibHash

/-- Integer value of byte `b` (with `b < 256`) when read through a signed `char`. -/
def scharVal (b : Nat) : Int := if b < 128 then (b : Int) else (b : Int) - 256

/-! ## LCG hash function (`hf_lcg_generic`) -/

/-- `A = 1664525` of `hf_lcg_generic`. -/
def lcgA : Nat := 1664525

/-- `B = 1013904223` of `hf_lcg_generic`. -/
def lcgB : Nat := 1013904223

/-- One step `tmp = (tmp << 8) + (*key++)` of `hf_lcg_generic`; `tmp` is
`uint32_t` and `*key` a signed `char`, so the sum is reduced `mod 2 ^ 32`. -/
def lcgAccByte (tmp b : Nat) : Nat :=
  ((((tmp <<< 8 : Nat) : Int) + scharVal b).emod (2 ^ 32)).toNat

/-- The per-group step `tmp = (tmp * A) + B` of `hf_lcg_generic` (`uint32_t`). -/
def lcgMix (tmp : Nat) : Nat := (tmp * lcgA + lcgB) % 2 ^ 32

/-- The loop of `hf_lcg_generic`: `i` is the index of the byte at the head of
the list, `tmp` the running group accumulator, `hashvalue` the running XOR.
`rest = []` is exactly the C condition `i == len - 1`. -/
def hf_lcg_go : List Nat → Nat → Nat → Nat → Nat
  | [], _, _, hashvalue => hashvalue
  | b :: rest, i, tmp, hashvalue =>
    let tmp1 := lcgAccByte tmp b
    if (i + 1) % 4 = 0 ∨ rest = [] then
      hf_lcg_go rest (i + 1) 0 (hashvalue ^^^ lcgMix tmp1)
    else
      hf_lcg_go rest (i + 1) tmp1 hashvalue

/-- `hf_lcg_generic(state, key, len)` (the `state` argument is unused). -/
def hf_lcg_generic (key : List Nat) : Nat := hf_lcg_go key 0 0 0

/-- Split a byte string into groups of 4 bytes, the last group possibly short. -/
def chunk4 : List Nat → List (List Nat)
  | [] => []
  | [a] => [[a]]
  | [a, b] => [[a, b]]
  | [a, b, c] => [[a, b, c]]
  | a :: b :: c :: d :: rest => [a, b, c, d] :: chunk4 rest

/-- Modelled from the spec: "processes bytes 4 at a time (big-endian
accumulation, including a short final group)" — the group value accumulated
from the plain byte values, big-endian. -/
def lcgGroupBE (g : List Nat) : Nat := g.foldl (fun acc b => (acc * 256 + b) % 2 ^ 32) 0

/-- XOR of a list of words. -/
def xorAll (l : List Nat) : Nat := l.foldl (· ^^^ ·) 0

/-- Modelled from the spec: the full per-group description, "applies
`v' = v*1664525 + 1013904223 (mod 2^32)` per group, XORs results",
with plain big-endian group accumulation. -/
def lcgSpecBE (key : List Nat) : Nat := xorAll ((chunk4 key).map (fun g => lcgMix (lcgGroupBE g)))

/-- The same chunked description, but with each byte entering the group
accumulator as its signed-`char` value (what the code actually computes). -/
def lcgGroupSigned (g : List Nat) : Nat := g.foldl lcgAccByte 0

/-- Chunked form of the hash the code computes: groups of 4 (short final
group), signed-`char` big-endian accumulation, LCG step per group, XOR. -/
def lcgSpecSigned (key : List Nat) : Nat :=
  xorAll ((chunk4 key).map (fun g => lcgMix (lcgGroupSigned g)))

/-! ## Zobrist hash function (`hf_zobrist_generic`) -/

/-- Zobrist state: `tablelen` (a power of two), `tablemask = tablelen - 1`, and
the `256 × tablelen` random table, as a function. -/
structure hf_zobrist_state_t where
  tablelen : Nat
  tablemask : Nat
  zobrist : Nat → Nat → Nat

/-- The loop of `hf_zobrist_generic`:
`hashvalue ^= state->zobrist[(int)(*key++)][i++ & state->tablemask]`.
The first index is the signed-`char` value of the key byte; a negative value is
an out-of-bounds read of the `zobrist[256]` row array, modelled as `none`. -/
def hf_zobrist_go (state : hf_zobrist_state_t) : List Nat → Nat → Nat → Option Nat
  | [], _, hashvalue => some hashvalue
  | b :: rest, i, hashvalue =>
    let idx := scharVal b
    if 0 ≤ idx then
      hf_zobrist_go state rest (i + 1)
        (hashvalue ^^^ state.zobrist idx.toNat (i &&& state.tablemask))
    else none

/-- `hf_zobrist_generic(state, key, len)`. -/
def hf_zobrist_generic (state : hf_zobrist_state_t) (key : List Nat) : Option Nat :=
  hf_zobrist_go state key 0 0

/-! ## Object type registry entries (`conn_t`, `uint32`) -/

/-- `conn_t`: two `uint32_t` addresses, two `uint16_t` ports, one `uint8_t`
protocol id. -/
structure conn_t where
  saddr : Nat
  daddr : Nat
  sport : Nat
  dport : Nat
  proto : Nat
deriving DecidableEq

/-- `conn_should_swap`. -/
def conn_should_swap (conn : conn_t) : Bool :=
  if conn.saddr > conn.daddr then true
  else if conn.saddr < conn.daddr then false
  else conn.sport > conn.dport

/-- Byte `j` emitted for a `uint32_t` word: `(char)((word << 8*j) >> 24)`. -/
def marshallByte (word j : Nat) : Nat := ((word <<< (8 * j)) % 2 ^ 32) >>> 24

/-- `conn_marshall`: 13 bytes — lower-ranked address big-endian, higher-ranked
address big-endian, the packed port word, the protocol byte. -/
def conn_marshall (conn : conn_t) : List Nat :=
  let swap := conn_should_swap conn
  let w1 := if swap then conn.daddr else conn.saddr
  let w2 := if swap then conn.saddr else conn.daddr
  let wp := if swap then (conn.dport <<< 16) ||| conn.sport
            else (conn.sport <<< 16) ||| conn.dport
  [marshallByte w1 0, marshallByte w1 1, marshallByte w1 2, marshallByte w1 3,
   marshallByte w2 0, marshallByte w2 1, marshallByte w2 2, marshallByte w2 3,
   marshallByte wp 0, marshallByte wp 1, marshallByte wp 2, marshallByte wp 3,
   conn.proto % 256]

/-- `conncmp`. -/
def conncmp (conn1 conn2 : conn_t) : Int :=
  if conn1.saddr = conn2.saddr ∧ conn1.daddr = conn2.daddr ∧
     conn1.sport = conn2.sport ∧ conn1.dport = conn2.dport ∧
     conn1.proto = conn2.proto then 0
  else if conn1.saddr = conn2.daddr ∧ conn1.daddr = conn2.saddr ∧
     conn1.sport = conn2.dport ∧ conn1.dport = conn2.sport ∧
     conn1.proto = conn2.proto then 0
  else
    let swap1 := conn_should_swap conn1
    let swap2 := conn_should_swap conn2
    let a1 := if swap1 then conn1.daddr else conn1.saddr
    let a2 := if swap2 then conn2.daddr else conn2.saddr
    if a1 > a2 then -1 else if a1 < a2 then 1 else
    let b1 := if swap1 then conn1.saddr else conn1.daddr
    let b2 := if swap2 then conn2.saddr else conn2.daddr
    if b1 > b2 then -1 else if b1 < b2 then 1 else
    let p1 := if swap1 then conn1.dport else conn1.sport
    let p2 := if swap2 then conn2.dport else conn2.sport
    if p1 > p2 then -1 else if p1 < p2 then 1 else
    let q1 := if swap1 then conn1.sport else conn1.dport
    let q2 := if swap2 then conn2.sport else conn2.dport
    if q1 > q2 then -1 else if q1 < q2 then 1 else
    if conn1.proto > conn2.proto then -1 else if conn1.proto < conn2.proto then 1 else 0

/-- `uint32cmp`. -/
def uint32cmp (u1 u2 : Nat) : Int := if u1 > u2 then -1 else if u1 < u2 then 1 else 0

/-- `uint32_marshall`: the 4 value bytes in native (little-endian) order;
`ho[HASH_OBJECT_TYPE_UINT32].len = sizeof(uint32_t) = 4`. -/
def uint32_marshall (u : Nat) : List Nat :=
  [u % 256, (u >>> 8) % 256, (u >>> 16) % 256, (u >>> 24) % 256]

/-! ## Table engine -/

/-- `hash_table_item_t`, minus the chain links (`prev`/`next` are positional in
a `List`-modelled chain); `h` is the cached bucket index. -/
structure Item (κ υ : Type) where
  key : κ
  yield : υ
  h : Nat
deriving DecidableEq

/-- `hash_table_t`.  The `storage`/`collision` tags and the copy flags are
constants that do not influence the value-level behaviour modelled here. -/
structure hash_table_t (κ υ : Type) where
  nbuckets : Nat
  entries : Nat
  mask : Nat
  max_bucket_occupancy_ratio : ℚ
  bucket : List (List (Item κ υ))
deriving DecidableEq

/-- The per-table dispatch data: `ho[ht->key].cmp`, `ho[ht->yield].cmp`, and
the composite `ht->hf->hash(ht, ·)` (which marshals and reduces the key). -/
structure HashCtx (κ υ : Type) where
  keyCmp : κ → κ → Int
  yieldCmp : υ → υ → Int
  hash : κ → Nat

variable {κ υ : Type}

/-- The rounding loop of `ht_raw_init`:
`ht->nbuckets = 0x40000000; while (ht->nbuckets > nbuckets) ht->nbuckets >>= 1;`.
Starting from `0x40000000 = 2 ^ 30` the loop body runs at most 31 times
(`2 ^ 30, 2 ^ 29, …, 1, 0`), so 32 iterations of fuel make the fuelled loop
exact. -/
def nbucketsLoop : Nat → Nat → Nat → Nat
  | 0, v, _ => v
  | fuel + 1, v, n => if n < v then nbucketsLoop fuel (v / 2) n else v

/-- `ht_raw_init` (the allocation of the frame and the bucket array cannot
fail in the model; in C an allocation failure aborts the process). -/
def ht_raw_init (r : ℚ) (nbuckets : Nat) : hash_table_t κ υ :=
  let v := nbucketsLoop 32 0x40000000 nbuckets
  let nb := if v < 16 then 16 else v
  { nbuckets := nb, entries := 0, mask := nb - 1,
    max_bucket_occupancy_ratio := r, bucket := List.replicate nb [] }

/-- Read of an in-range bucket slot (`ht->bucket[h]` for `h < nbuckets`). -/
def bucketAt (ht : hash_table_t κ υ) (h : Nat) : List (Item κ υ) := ht.bucket.getD h []

/-- `(key == NULL) || (ho[ht->key].cmp(key, item->key) == 0)`. -/
def matchKey (C : HashCtx κ υ) (key : Option κ) (k : κ) : Bool :=
  match key with
  | none => true
  | some kq => C.keyCmp kq k == 0

/-- `(yield == NULL) || (ho[ht->yield].cmp(yield, item->yield) == 0)`. -/
def matchYield (C : HashCtx κ υ) (yield : Option υ) (y : υ) : Bool :=
  match yield with
  | none => true
  | some yq => C.yieldCmp yq y == 0

/-- The match test of `ht_raw_lookup`/`ht_raw_remove`. -/
def itemMatches (C : HashCtx κ υ) (key : Option κ) (yield : Option υ) (it : Item κ υ) : Bool :=
  matchKey C key it.key && matchYield C yield it.yield

/-- The inner chain scan of `ht_raw_lookup`. -/
def findInChain (C : HashCtx κ υ) (key : Option κ) (yield : Option υ)
    (chain : List (Item κ υ)) : Option (Item κ υ) :=
  chain.find? (itemMatches C key yield)

/-- The bucket range `[h1, h2)` scanned by `ht_raw_lookup`/`ht_raw_remove`:
all of `[0, nbuckets)` for a wildcard key, else the key's single bucket. -/
def bucketRange (C : HashCtx κ υ) (ht : hash_table_t κ υ) (key : Option κ) : Nat × Nat :=
  match key with
  | none => (0, ht.nbuckets)
  | some k => let h1 := C.hash k &&& ht.mask; (h1, h1 + 1)

/-- `ht_raw_lookup`. -/
def ht_raw_lookup (C : HashCtx κ υ) (ht : hash_table_t κ υ)
    (key : Option κ) (yield : Option υ) : Option (Item κ υ) :=
  let p := bucketRange C ht key
  (List.range' p.1 (p.2 - p.1)).findSome? (fun h => findInChain C key yield (bucketAt ht h))

/-- `ht_raw_exists`. -/
def ht_raw_exists (C : HashCtx κ υ) (ht : hash_table_t κ υ)
    (key : Option κ) (yield : Option υ) : Bool :=
  (ht_raw_lookup C ht key yield).isSome

/-- The rehash step of `ht_raw_rebuild`: push one old item to the front of its
new bucket chain, refreshing the cached index and counting it. -/
def pushItem (C : HashCtx κ υ) (t : hash_table_t κ υ) (item : Item κ υ) : hash_table_t κ υ :=
  let h := C.hash item.key &&& t.mask
  { t with bucket := t.bucket.set h ({ item with h := h } :: bucketAt t h),
           entries := t.entries + 1 }

/-- `ht_raw_rebuild`.  NOTE, faithful to the source: the new table is created
with `ht_raw_init(…, ht->nbuckets, …)` — the `nbuckets` parameter of
`ht_raw_rebuild` is never used. -/
def ht_raw_rebuild (C : HashCtx κ υ) (ht : hash_table_t κ υ) (nbuckets : Nat) :
    hash_table_t κ υ :=
  let _ := nbuckets
  let newht : hash_table_t κ υ := ht_raw_init ht.max_bucket_occupancy_ratio ht.nbuckets
  (List.range ht.nbuckets).foldl (fun acc i => (bucketAt ht i).foldl (pushItem C) acc) newht

/-- The grow test of `ht_raw_insert`:
`ht->entries >= ht->max_bucket_occupancy_ratio * ht->nbuckets`.
For a rational ratio `r = num/den` (`den > 0`) this is
`num * nbuckets ≤ entries * den`, written on `Int` to stay kernel-computable;
`growCondition_iff` below relates it to the `ℚ`-level inequality. -/
def growCondition (ht : hash_table_t κ υ) : Prop :=
  ht.max_bucket_occupancy_ratio.num * ht.nbuckets ≤
    (ht.entries : Int) * ht.max_bucket_occupancy_ratio.den

instance (ht : hash_table_t κ υ) : Decidable (growCondition ht) := by
  unfold growCondition; infer_instance

/-- The grow loop of `ht_raw_insert`:
`while (ht->entries >= ht->max_bucket_occupancy_ratio * ht->nbuckets)
  ht_raw_rebuild(ht, ht->nbuckets*2);`
modelled with fuel; `none` models non-termination of the loop. -/
def growLoop (C : HashCtx κ υ) : Nat → hash_table_t κ υ → Option (hash_table_t κ υ)
  | 0, ht => if growCondition ht then none else some ht
  | fuel + 1, ht =>
    if growCondition ht then growLoop C fuel (ht_raw_rebuild C ht (ht.nbuckets * 2))
    else some ht

/-- `ht_raw_insert`; `some (-1, ht)` is the "already exists" no-op result,
`some (0, ht')` success, `none` a non-terminating grow loop. -/
def ht_raw_insert (C : HashCtx κ υ) (fuel : Nat) (ht : hash_table_t κ υ)
    (key : κ) (yield : υ) : Option (Int × hash_table_t κ υ) :=
  if ht_raw_exists C ht (some key) (some yield) then some (-1, ht)
  else
    match growLoop C fuel ht with
    | none => none
    | some ht1 =>
      let h := C.hash key &&& ht1.mask
      let item : Item κ υ := { key := key, yield := yield, h := h }
      some (0, { ht1 with bucket := ht1.bucket.set h (item :: bucketAt ht1 h),
                          entries := ht1.entries + 1 })

/-- One bucket pass of `ht_raw_remove`: unlinking every matching item from a
doubly-linked chain is filtering; `entries` is decremented once per removal. -/
def removeBucket (C : HashCtx κ υ) (key : Option κ) (yield : Option υ)
    (ht : hash_table_t κ υ) (h : Nat) : hash_table_t κ υ × Nat :=
  let chain := bucketAt ht h
  let cnt := chain.countP (itemMatches C key yield)
  ({ ht with bucket := ht.bucket.set h (chain.filter (fun it => !itemMatches C key yield it)),
             entries := ht.entries - cnt }, cnt)

/-- The bucket loop of `ht_raw_remove` over `n` buckets starting at `h`. -/
def removeLoop (C : HashCtx κ υ) (key : Option κ) (yield : Option υ) :
    hash_table_t κ υ → Nat → Nat → hash_table_t κ υ × Nat
  | ht, _, 0 => (ht, 0)
  | ht, h, n + 1 =>
    let r1 := removeBucket C key yield ht h
    let r2 := removeLoop C key yield r1.1 (h + 1) n
    (r2.1, r1.2 + r2.2)

/-- `ht_raw_remove`. -/
def ht_raw_remove (C : HashCtx κ υ) (ht : hash_table_t κ υ)
    (key : Option κ) (yield : Option υ) : hash_table_t κ υ × Nat :=
  let p := bucketRange C ht key
  removeLoop C key yield ht p.1 (p.2 - p.1)

/-- `ht_raw_reset` (`ht_raw_remove(ht, NULL, NULL)`, bucket array retained). -/
def ht_raw_reset (C : HashCtx κ υ) (ht : hash_table_t κ υ) : hash_table_t κ υ :=
  (ht_raw_remove C ht none none).1

/-- Result of `ht_raw_get_next`: an item, `NULL`, or an out-of-range read of
`ht->bucket[i]` (which the C code performs without returning). -/
inductive GetNextResult (κ υ : Type) where
  | found : Item κ υ → GetNextResult κ υ
  | notFound : GetNextResult κ υ
  | oobRead : Nat → GetNextResult κ υ
deriving DecidableEq

/-- The wildcard scan of `ht_raw_get_next`:
`for (; h < ht->nbuckets; ++h) for (next = ht->bucket[h]; …) return next;`
— the first item of the first nonempty bucket at index `≥ h`, if any.  The
loop guard keeps every index below `nbuckets`. -/
def wildScan (ht : hash_table_t κ υ) (h : Nat) : GetNextResult κ υ :=
  match (List.range' h (ht.nbuckets - h)).findSome? (fun i => (bucketAt ht i).head?) with
  | some it => .found it
  | none => .notFound

/-- The keyed single-bucket scan of `ht_raw_get_next`:
`for (next = ht->bucket[h]; next != NULL; next = next->next) if (cmp == 0) …`.
This read of `ht->bucket[h]` is not range-guarded in the source, so it is
modelled through `List.get?`: an out-of-range `h` is an `oobRead`. -/
def keyScanBucket (C : HashCtx κ υ) (ht : hash_table_t κ υ) (k : κ) (h : Nat) :
    GetNextResult κ υ :=
  match ht.bucket.get? h with
  | none => .oobRead h
  | some chain =>
    match chain.find? (fun it => C.keyCmp k it.key == 0) with
    | some it => .found it
    | none => .notFound

/-- `ht_raw_get_next`.  A C pointer to a live item is the pair
(bucket index, chain position); the item's fields (`h`, the chain successor)
are read from the table at that position. -/
def ht_raw_get_next (C : HashCtx κ υ) (ht : hash_table_t κ υ)
    (item : Option (Nat × Nat)) (key : Option κ) : GetNextResult κ υ :=
  match item with
  | none =>
    match key with
    | none => wildScan ht 0
    | some k => keyScanBucket C ht k (C.hash k &&& ht.mask)
  | some (hb, p) =>
    match (bucketAt ht hb).get? p with
    | none => .notFound
    | some it =>
      match (bucketAt ht hb).get? (p + 1) with
      | some nxt =>
        match key with
        | none => .found nxt
        | some k => if C.keyCmp k nxt.key == 0 then .found nxt else .notFound
      | none =>
        let h := it.h + 1
        if ht.nbuckets < h then .notFound
        else
          match key with
          | none => wildScan ht h
          | some k => keyScanBucket C ht k h

/-! ## Well-formedness -/

/-- Structural well-formedness: `mask = nbuckets - 1` with `nbuckets ≥ 1`, and
the bucket array has `nbuckets` slots. -/
def WFB (ht : hash_table_t κ υ) : Prop :=
  ht.mask + 1 = ht.nbuckets ∧ ht.bucket.length = ht.nbuckets

/-- Total number of items stored in the buckets. -/
def totalEntries (ht : hash_table_t κ υ) : Nat := (ht.bucket.map List.length).sum

/-- Full well-formedness: structural, the `entries` field counts the stored
items, and every item sits in the bucket its key hashes to. -/
def WF (C : HashCtx κ υ) (ht : hash_table_t κ υ) : Prop :=
  WFB ht ∧ ht.entries = totalEntries ht ∧
    ∀ j < ht.nbuckets, ∀ it ∈ bucketAt ht j, j = C.hash it.key &&& ht.mask

instance (ht : hash_table_t κ υ) : Decidable (WFB ht) := by
  unfold WFB; infer_instance

instance [DecidableEq κ] (C : HashCtx κ υ) (ht : hash_table_t κ υ) : Decidable (WF C ht) := by
  unfold WF; infer_instance

/-! ## Concrete instantiations used by the scenarios -/

/-- `hf_lcg` for a `uint32` key: marshal, then `hf_lcg_generic` over the
4 marshalled bytes. -/
def hf_lcg_uint32 (u : Nat) : Nat := hf_lcg_generic (uint32_marshall u)

/-- Table context of the test scenarios: `uint32` keys and yields
(`HASH_OBJECT_TYPE_UINT32` comparators), LCG hashing. -/
def uctx : HashCtx Nat Nat :=
  { keyCmp := uint32cmp, yieldCmp := uint32cmp, hash := hf_lcg_uint32 }

/-- Insert a list of pairs in order, propagating a diverging insert. -/
def insertSeq (C : HashCtx κ υ) (fuel : Nat) :
    hash_table_t κ υ → List (κ × υ) → Option (hash_table_t κ υ)
  | ht, [] => some ht
  | ht, (k, y) :: rest =>
    match ht_raw_insert C fuel ht k y with
    | none => none
    | some r => insertSeq C fuel r.2 rest

/-! ## Basic lemmas -/

/-- The `Int`-level grow test equals the `ℚ`-level inequality
`ratio * nbuckets ≤ entries`. -/
theorem growCondition_iff (ht : hash_table_t κ υ) :
    growCondition ht ↔
      ht.max_bucket_occupancy_ratio * (ht.nbuckets : ℚ) ≤ (ht.entries : ℚ) := by
  unfold growCondition
  rcases ht with ⟨nb, e, m, r, b⟩
  dsimp only
  have hd : (0 : ℚ) < (r.den : ℚ) := by exact_mod_cast r.den_pos
  constructor
  · intro h
    have h' : (r.num : ℚ) * (nb : ℚ) ≤ (e : ℚ) * (r.den : ℚ) := by exact_mod_cast h
    have h2 := (div_le_iff₀ hd).mpr h'
    rw [← div_mul_eq_mul_div, Rat.num_div_den] at h2
    exact h2
  · intro h
    have h2 : (r.num : ℚ) / (r.den : ℚ) * (nb : ℚ) ≤ (e : ℚ) := by
      rw [Rat.num_div_den]; exact h
    rw [div_mul_eq_mul_div, div_le_iff₀ hd] at h2
    exact_mod_cast h2

/-! ## C6: connection canonicalization -/

/-- C6: marshalling a 5-tuple and its reversed orientation produces
byte-identical 13-byte output, and the connection comparator returns 0 on the
two orientations, so the table treats both as one key. -/
theorem c6_conn_canonicalization_symmetric (a b sp dp pr : Nat) :
    conn_marshall ⟨a, b, sp, dp, pr⟩ = conn_marshall ⟨b, a, dp, sp, pr⟩ ∧
    conncmp ⟨a, b, sp, dp, pr⟩ ⟨b, a, dp, sp, pr⟩ = 0 := by
  constructor
  · rcases Nat.lt_trichotomy a b with hab | rfl | hab
    · simp [conn_marshall, conn_should_swap, hab, Nat.lt_asymm hab]
    · rcases Nat.lt_trichotomy sp dp with hpq | rfl | hpq
      · simp [conn_marshall, conn_should_swap, hpq, Nat.lt_asymm hpq, Nat.lt_irrefl]
      · simp [conn_marshall, conn_should_swap, Nat.lt_irrefl]
      · simp [conn_marshall, conn_should_swap, hpq, Nat.lt_asymm hpq, Nat.lt_irrefl]
    · simp [conn_marshall, conn_should_swap, hab, Nat.lt_asymm hab]
  · unfold conncmp
    dsimp only
    by_cases h1 : a = b ∧ b = a ∧ sp = dp ∧ dp = sp ∧ pr = pr
    · rw [if_pos h1]
    · rw [if_neg h1, if_pos ⟨rfl, rfl, rfl, rfl, rfl⟩]

/-! ## C7: the LCG hash function -/

theorem foldl_xor (l : List Nat) : ∀ a : Nat, l.foldl (· ^^^ ·) a = a ^^^ xorAll l := by
  induction l with
  | nil => intro a; simp [xorAll]
  | cons b l ih =>
    intro a
    have h1 : xorAll (b :: l) = b ^^^ xorAll l := by
      show List.foldl (· ^^^ ·) (0 ^^^ b) l = _
      rw [ih (0 ^^^ b), Nat.zero_xor]
    show List.foldl (· ^^^ ·) (a ^^^ b) l = _
    rw [ih (a ^^^ b), h1, Nat.xor_assoc]

theorem xorAll_cons (b : Nat) (l : List Nat) : xorAll (b :: l) = b ^^^ xorAll l := by
  show List.foldl (· ^^^ ·) (0 ^^^ b) l = _
  rw [foldl_xor l (0 ^^^ b), Nat.zero_xor]

theorem hf_lcg_go_nil (i tmp hv : Nat) : hf_lcg_go [] i tmp hv = hv := rfl

theorem hf_lcg_go_step (b : Nat) (rest : List Nat) (i tmp hv : Nat) :
    hf_lcg_go (b :: rest) i tmp hv =
      if (i + 1) % 4 = 0 ∨ rest = [] then
        hf_lcg_go rest (i + 1) 0 (hv ^^^ lcgMix (lcgAccByte tmp b))
      else hf_lcg_go rest (i + 1) (lcgAccByte tmp b) hv := rfl

theorem xorAll_singleton (x : Nat) : xorAll [x] = x := Nat.zero_xor x

theorem hf_lcg_go_chunk4 (key : List Nat) : ∀ i hv : Nat, i % 4 = 0 →
    hf_lcg_go key i 0 hv =
      hv ^^^ xorAll ((chunk4 key).map (fun g => lcgMix (lcgGroupSigned g))) := by
  induction key using chunk4.induct with
  | case1 =>
    intro i hv _
    rw [hf_lcg_go_nil]
    show hv = hv ^^^ xorAll []
    rw [show xorAll ([] : List Nat) = 0 from rfl, Nat.xor_zero]
  | case2 a =>
    intro i hv _
    rw [hf_lcg_go_step, if_pos (Or.inr rfl), hf_lcg_go_nil]
    show _ = hv ^^^ xorAll [lcgMix (lcgGroupSigned [a])]
    rw [xorAll_singleton]; rfl
  | case3 a b =>
    intro i hv h
    have h1 : ¬((i + 1) % 4 = 0) := by omega
    rw [hf_lcg_go_step, if_neg (not_or.mpr ⟨h1, List.cons_ne_nil _ _⟩),
      hf_lcg_go_step, if_pos (Or.inr rfl), hf_lcg_go_nil]
    show _ = hv ^^^ xorAll [lcgMix (lcgGroupSigned [a, b])]
    rw [xorAll_singleton]; rfl
  | case4 a b c =>
    intro i hv h
    have h1 : ¬((i + 1) % 4 = 0) := by omega
    have h2 : ¬((i + 1 + 1) % 4 = 0) := by omega
    rw [hf_lcg_go_step, if_neg (not_or.mpr ⟨h1, List.cons_ne_nil _ _⟩),
      hf_lcg_go_step, if_neg (not_or.mpr ⟨h2, List.cons_ne_nil _ _⟩),
      hf_lcg_go_step, if_pos (Or.inr rfl), hf_lcg_go_nil]
    show _ = hv ^^^ xorAll [lcgMix (lcgGroupSigned [a, b, c])]
    rw [xorAll_singleton]; rfl
  | case5 a b c d rest ih =>
    intro i hv h
    have h1 : ¬((i + 1) % 4 = 0) := by omega
    have h2 : ¬((i + 1 + 1) % 4 = 0) := by omega
    have h3 : ¬((i + 1 + 1 + 1) % 4 = 0) := by omega
    have h4 : (i + 1 + 1 + 1 + 1) % 4 = 0 := by omega
    rw [hf_lcg_go_step, if_neg (not_or.mpr ⟨h1, List.cons_ne_nil _ _⟩),
      hf_lcg_go_step, if_neg (not_or.mpr ⟨h2, List.cons_ne_nil _ _⟩),
      hf_lcg_go_step, if_neg (not_or.mpr ⟨h3, List.cons_ne_nil _ _⟩),
      hf_lcg_go_step, if_pos (Or.inl h4),
      ih (i + 1 + 1 + 1 + 1)
        (hv ^^^ lcgMix (lcgAccByte (lcgAccByte (lcgAccByte (lcgAccByte 0 a) b) c) d)) h4]
    show (hv ^^^ lcgMix (lcgGroupSigned [a, b, c, d])) ^^^
        xorAll ((chunk4 rest).map (fun g => lcgMix (lcgGroupSigned g))) =
      hv ^^^ xorAll (lcgMix (lcgGroupSigned [a, b, c, d]) ::
        (chunk4 rest).map (fun g => lcgMix (lcgGroupSigned g)))
    rw [xorAll_cons, Nat.xor_assoc]

/-- C7 counterexample: on the byte string `[0x80]` the hash the code computes
differs from the spec's plain big-endian accumulation formula (`char` is
signed, so byte `0x80` enters the accumulator as `-128`, not `128`). -/
theorem c7_counterexample : hf_lcg_generic [128] ≠ lcgSpecBE [128] := by decide

/-- C7 (amended): the LCG hash processes bytes 4 at a time (short final
group), accumulating each group big-endian with each byte taken at its
signed-`char` value mod `2^32`, applies `v' = v*1664525 + 1013904223 (mod 2^32)`
per group, and XORs the per-group results.  Determinism across runs and
processes holds as the embedding is a pure function of the bytes. -/
theorem c7_lcg_chunked_signed (key : List Nat) : hf_lcg_generic key = lcgSpecSigned key := by
  have h := hf_lcg_go_chunk4 key 0 0 rfl
  simpa [hf_lcg_generic, lcgSpecSigned, Nat.zero_xor] using h

/-! ## C8: the Zobrist hash function -/

/-- C8: any key whose first marshalled byte is `≥ 0x80` (here `0xC8`) makes
`hf_zobrist_generic` read `zobrist[(int)(*key)]` with a negative index —
an out-of-bounds access, not the `zobrist[byte][i mod L]` table value the
spec describes. -/
theorem c8_zobrist_signed_index_oob (state : hf_zobrist_state_t) (rest : List Nat) :
    hf_zobrist_generic state (200 :: rest) = none := by
  simp [hf_zobrist_generic, hf_zobrist_go, scharVal]

/-! ## Grow-loop lemmas -/

/-- If a set of states is closed under the grow-rebuild step and every state
in it satisfies the grow condition, the grow loop never exits. -/
theorem growLoop_none_of_invariant (C : HashCtx κ υ) (P : hash_table_t κ υ → Prop)
    (hc : ∀ t, P t → growCondition t)
    (hstep : ∀ t, P t → P (ht_raw_rebuild C t (t.nbuckets * 2))) :
    ∀ (fuel : Nat) (t : hash_table_t κ υ), P t → growLoop C fuel t = none := by
  intro fuel
  induction fuel with
  | zero =>
    intro t ht
    simp only [growLoop]
    rw [if_pos (hc t ht)]
  | succ n ih =>
    intro t ht
    simp only [growLoop]
    rw [if_pos (hc t ht)]
    exact ih _ (hstep t ht)

/-- Exiting the grow loop means the grow condition fails at the exit state. -/
theorem growLoop_some_not_growCondition (C : HashCtx κ υ) :
    ∀ (fuel : Nat) (ht ht1 : hash_table_t κ υ),
      growLoop C fuel ht = some ht1 → ¬ growCondition ht1 := by
  intro fuel
  induction fuel with
  | zero =>
    intro ht ht1 h
    simp only [growLoop] at h
    by_cases hc : growCondition ht
    · rw [if_pos hc] at h; cases h
    · rw [if_neg hc] at h; cases h; exact hc
  | succ n ih =>
    intro ht ht1 h
    simp only [growLoop] at h
    by_cases hc : growCondition ht
    · rw [if_pos hc] at h; exact ih _ _ h
    · rw [if_neg hc] at h; cases h; exact hc

/-! ## Scenario tables -/

/-- A table with ratio `1/2` and 16 buckets (`uint32` keys and yields). -/
def tbl16 : hash_table_t Nat Nat := ht_raw_init (mkRat 1 2) 16

/-- Context with `uint32` comparators and a caller-chosen identity hash
function (the engine accepts any `hash_function_t`). -/
def idctx : HashCtx Nat Nat :=
  { keyCmp := uint32cmp, yieldCmp := uint32cmp, hash := fun k => k }

/-! ## C1: growth scenario -/

/-- The 8 distinct pairs `(0,0) … (7,0)` of the growth scenario. -/
def c1pairs : List (Nat × Nat) := (List.range 8).map (fun k => (k, 0))

/-- The table after the 8 successful inserts of the growth scenario. -/
def c1ht8 : hash_table_t Nat Nat := (insertSeq uctx 1 tbl16 c1pairs).getD tbl16

/-- C1: with `maxOccupancyRatio = 1/2` and `initialBuckets = 16`, the first 8
distinct inserts succeed, leaving 16 buckets and 8 entries — and the 9th
distinct insert never returns, for any amount of grow-loop fuel:
`ht_raw_rebuild` passes `ht->nbuckets` (not its doubled argument) to
`ht_raw_init`, so the rebuild inside the grow loop never changes `nbuckets`
and the loop condition stays true forever.  The claimed doubling to 32
buckets never happens. -/
theorem c1_ninth_insert_never_returns :
    insertSeq uctx 1 tbl16 c1pairs = some c1ht8 ∧
    c1ht8.nbuckets = 16 ∧ c1ht8.entries = 8 ∧
    ∀ fuel, ht_raw_insert uctx fuel c1ht8 8 0 = none := by
  refine ⟨by decide, by decide, by decide, ?_⟩
  intro fuel
  have hnone : growLoop uctx fuel c1ht8 = none := by
    refine growLoop_none_of_invariant uctx
      (fun t => t = c1ht8 ∨ t = ht_raw_rebuild uctx c1ht8 (c1ht8.nbuckets * 2))
      ?_ ?_ fuel c1ht8 (Or.inl rfl)
    · rintro t (rfl | rfl)
      · decide
      · decide
    · rintro t (rfl | rfl)
      · exact Or.inr rfl
      · left; decide
  unfold ht_raw_insert
  rw [if_neg (by decide : ¬(ht_raw_exists uctx c1ht8 (some 8) (some 0) = true)), hnone]

/-! ## C3: rebuild ignores its bucket-count hint -/

/-- The 16-bucket table holding the single pair `(1, 1)`. -/
def c3ht : hash_table_t Nat Nat :=
  ((ht_raw_insert uctx 1 tbl16 1 1).getD (0, tbl16)).2

/-- C3: `ht_raw_rebuild` with hint 32 on a 16-bucket table produces 16
buckets, not 32 — the hint is ignored because `ht_raw_init` is called with
`ht->nbuckets`.  (The rehash itself does move the item: `entries` is 1.) -/
theorem c3_rebuild_ignores_hint :
    ht_raw_insert uctx 1 tbl16 1 1 = some (0, c3ht) ∧
    c3ht.nbuckets = 16 ∧ c3ht.entries = 1 ∧
    (ht_raw_rebuild uctx c3ht 32).nbuckets = 16 ∧
    (ht_raw_rebuild uctx c3ht 32).entries = 1 := by
  refine ⟨by decide, by decide, by decide, by decide, by decide⟩

/-! ## C10: getNext bounds -/

/-- A 16-bucket table whose single item sits (alone) in the last bucket,
index 15, under the identity hash. -/
def c10ht : hash_table_t Nat Nat := ((ht_raw_insert idctx 1 tbl16 15 0).getD (0, tbl16)).2

/-- C10: with the previous item at the end of the chain of the last bucket
and a non-wildcard key, `ht_raw_get_next` passes its `++h > ht->nbuckets`
check (off-by-one) and reads `ht->bucket[16]`, one slot past the 16-slot
array, instead of returning not-found. -/
theorem c10_get_next_reads_out_of_range :
    ht_raw_insert idctx 1 tbl16 15 0 = some (0, c10ht) ∧
    c10ht.nbuckets = 16 ∧ bucketAt c10ht 15 = [⟨15, 0, 15⟩] ∧
    ht_raw_get_next idctx c10ht (some (15, 0)) (some 15) = GetNextResult.oobRead 16 := by
  refine ⟨by decide, by decide, by decide, by decide⟩

/-! ## C2: occupancy bound after insert -/

/-- A table with ratio `1/16` and 16 buckets. -/
def c2init : hash_table_t Nat Nat := ht_raw_init (mkRat 1 16) 16

/-- The table after inserting `(0, 0)` into `c2init`. -/
def c2tbl : hash_table_t Nat Nat := ((ht_raw_insert uctx 1 c2init 0 0).getD (0, c2init)).2

/-- C2 counterexample: with ratio `1/16` and 16 buckets the first insert
returns successfully and leaves `entries = 1 = (1/16)·16`, so the claimed
strict inequality `entries < maxOccupancyRatio * nbuckets` fails after an
insert that returns. -/
theorem c2_counterexample :
    ht_raw_insert uctx 1 c2init 0 0 = some (0, c2tbl) ∧
    ¬((c2tbl.entries : ℚ) < c2tbl.max_bucket_occupancy_ratio * (c2tbl.nbuckets : ℚ)) := by
  constructor
  · decide
  · have h1 : c2tbl.entries = 1 := by decide
    have h2 : c2tbl.max_bucket_occupancy_ratio = mkRat 1 16 := by decide
    have h3 : c2tbl.nbuckets = 16 := by decide
    rw [h1, h2, h3, Rat.mkRat_eq_divInt, Rat.divInt_eq_div]
    norm_num

/-- C2 (amended): after every insert that returns successfully, the state
just before the final `++ht->entries` was strictly below the threshold, i.e.
`entries - 1 < maxOccupancyRatio * nbuckets` holds of the resulting table.
(The grow loop exits only when `entries >= ratio * nbuckets` is false, and
the insert then adds exactly one entry.) -/
theorem c2_entries_bound_after_insert (C : HashCtx κ υ) (fuel : Nat)
    (ht ht' : hash_table_t κ υ) (k : κ) (y : υ)
    (h : ht_raw_insert C fuel ht k y = some (0, ht')) :
    (ht'.entries : ℚ) - 1 <
      ht'.max_bucket_occupancy_ratio * (ht'.nbuckets : ℚ) := by
  unfold ht_raw_insert at h
  by_cases hex : ht_raw_exists C ht (some k) (some y) = true
  · rw [if_pos hex] at h
    simp at h
  · rw [if_neg hex] at h
    cases hgl : growLoop C fuel ht with
    | none => rw [hgl] at h; cases h
    | some ht1 =>
      rw [hgl] at h
      have hnc := growLoop_some_not_growCondition C fuel ht ht1 hgl
      rw [growCondition_iff, not_le] at hnc
      cases h
      push_cast
      simpa using hnc

/-- Witness for `c2_entries_bound_after_insert` at a concrete insert. -/
theorem c2_witness :
    (c2tbl.entries : ℚ) - 1 <
      c2tbl.max_bucket_occupancy_ratio * (c2tbl.nbuckets : ℚ) :=
  c2_entries_bound_after_insert uctx 1 c2init c2tbl 0 0 (by decide)

/-! ## C9: power-of-two rounding and structural invariants -/

/-- `n` is a power of two. -/
def IsPow2 (n : Nat) : Prop := ∃ k, n = 2 ^ k

theorem nbucketsLoop_ge (fuel i n : Nat) (h : 2 ^ i ≤ n) :
    nbucketsLoop fuel (2 ^ i) n = 2 ^ i := by
  cases fuel with
  | zero => rfl
  | succ f => simp only [nbucketsLoop]; rw [if_neg (by omega)]

/-- Characterization of the halving loop below its start value: it returns 0
on input 0, else the largest power of two `≤ n`. -/
theorem nbucketsLoop_lt (i : Nat) : ∀ fuel n : Nat, i < fuel → n < 2 ^ i →
    (nbucketsLoop fuel (2 ^ i) n = 0 ∧ n = 0) ∨
    (IsPow2 (nbucketsLoop fuel (2 ^ i) n) ∧ nbucketsLoop fuel (2 ^ i) n ≤ n ∧
      n < 2 * nbucketsLoop fuel (2 ^ i) n) := by
  induction i with
  | zero =>
    intro fuel n hf hn
    left
    have hn0 : n = 0 := by omega
    subst hn0
    cases fuel with
    | zero => omega
    | succ f =>
      refine ⟨?_, rfl⟩
      simp only [nbucketsLoop]
      rw [if_pos (by norm_num), show (2 ^ 0 / 2 : Nat) = 0 by norm_num]
      cases f with
      | zero => rfl
      | succ f' => simp only [nbucketsLoop]; rw [if_neg (by omega)]
  | succ i ih =>
    intro fuel n hf hn
    cases fuel with
    | zero => omega
    | succ f =>
      have hstep : nbucketsLoop (f + 1) (2 ^ (i + 1)) n = nbucketsLoop f (2 ^ i) n := by
        simp only [nbucketsLoop]
        rw [if_pos hn]
        congr 1
        rw [pow_succ, Nat.mul_div_cancel _ (by norm_num)]
      rw [hstep]
      by_cases hge : 2 ^ i ≤ n
      · right
        rw [nbucketsLoop_ge f i n hge]
        exact ⟨⟨i, rfl⟩, hge, by rw [pow_succ] at hn; omega⟩
      · exact ih f n (by omega) (by omega)

/-- Characterization of `ht_raw_init`'s bucket count: a power of two with
`mask = nbuckets - 1`, equal to 16 for small requests, the largest power of
two `≤ n` for `16 ≤ n ≤ 2^30`, and capped at `2^30` above that. -/
theorem ht_raw_init_spec (r : ℚ) (n : Nat) :
    IsPow2 ((ht_raw_init r n : hash_table_t κ υ)).nbuckets ∧
    ((ht_raw_init r n : hash_table_t κ υ)).mask + 1 =
      ((ht_raw_init r n : hash_table_t κ υ)).nbuckets ∧
    (n < 16 → ((ht_raw_init r n : hash_table_t κ υ)).nbuckets = 16) ∧
    (16 ≤ n → n ≤ 2 ^ 30 → ((ht_raw_init r n : hash_table_t κ υ)).nbuckets ≤ n ∧
      n < 2 * ((ht_raw_init r n : hash_table_t κ υ)).nbuckets) ∧
    (2 ^ 30 ≤ n → ((ht_raw_init r n : hash_table_t κ υ)).nbuckets = 2 ^ 30) := by
  have h30 : (0x40000000 : Nat) = 2 ^ 30 := by norm_num
  simp only [ht_raw_init, h30]
  by_cases hge : 2 ^ 30 ≤ n
  · rw [nbucketsLoop_ge 32 30 n hge]
    rw [if_neg (by norm_num)]
    refine ⟨⟨30, rfl⟩, by norm_num, by omega, ?_, fun _ => rfl⟩
    intro h16 hle
    have : n = 2 ^ 30 := by omega
    omega
  · rcases nbucketsLoop_lt 30 32 n (by norm_num) (by omega) with ⟨hv, hn0⟩ | ⟨⟨k, hk⟩, hle, hlt⟩
    · rw [hv, if_pos (by norm_num)]
      subst hn0
      exact ⟨⟨4, by norm_num⟩, by norm_num, fun _ => rfl, by omega, by omega⟩
    · by_cases hsmall : nbucketsLoop 32 (2 ^ 30) n < 16
      · rw [if_pos hsmall]
        have hk4 : k < 4 := by
          by_contra hk4
          have : 2 ^ 4 ≤ 2 ^ k := Nat.pow_le_pow_right (by norm_num) (by omega)
          omega
        have hle8 : 2 ^ k ≤ 8 := by
          calc 2 ^ k ≤ 2 ^ 3 := Nat.pow_le_pow_right (by norm_num) (by omega)
          _ = 8 := by norm_num
        refine ⟨⟨4, by norm_num⟩, by norm_num, fun _ => rfl, ?_, by omega⟩
        intro h16 _
        omega
      · rw [if_neg hsmall]
        refine ⟨⟨k, hk⟩, by omega, by omega, fun _ _ => ⟨hle, hlt⟩, by omega⟩

/-- Frame facts preserved by a fold whose step only touches `bucket` and
`entries`. -/
theorem foldl_frame {α : Type} (f : hash_table_t κ υ → α → hash_table_t κ υ)
    (hf : ∀ t x, (f t x).nbuckets = t.nbuckets ∧ (f t x).mask = t.mask ∧
      (f t x).max_bucket_occupancy_ratio = t.max_bucket_occupancy_ratio ∧
      (f t x).bucket.length = t.bucket.length) :
    ∀ (l : List α) (t : hash_table_t κ υ),
      (l.foldl f t).nbuckets = t.nbuckets ∧ (l.foldl f t).mask = t.mask ∧
      (l.foldl f t).max_bucket_occupancy_ratio = t.max_bucket_occupancy_ratio ∧
      (l.foldl f t).bucket.length = t.bucket.length := by
  intro l
  induction l with
  | nil => intro t; exact ⟨rfl, rfl, rfl, rfl⟩
  | cons x l ih =>
    intro t
    obtain ⟨h1, h2, h3, h4⟩ := hf t x
    obtain ⟨g1, g2, g3, g4⟩ := ih (f t x)
    exact ⟨g1.trans h1, g2.trans h2, g3.trans h3, g4.trans h4⟩

theorem pushItem_frame (C : HashCtx κ υ) (t : hash_table_t κ υ) (it : Item κ υ) :
    (pushItem C t it).nbuckets = t.nbuckets ∧ (pushItem C t it).mask = t.mask ∧
    (pushItem C t it).max_bucket_occupancy_ratio = t.max_bucket_occupancy_ratio ∧
    (pushItem C t it).bucket.length = t.bucket.length := by
  simp [pushItem]

/-- `ht_raw_rebuild` yields the frame of `ht_raw_init ratio nbuckets`. -/
theorem ht_raw_rebuild_frame (C : HashCtx κ υ) (ht : hash_table_t κ υ) (n : Nat) :
    (ht_raw_rebuild C ht n).nbuckets =
      ((ht_raw_init ht.max_bucket_occupancy_ratio ht.nbuckets : hash_table_t κ υ)).nbuckets ∧
    (ht_raw_rebuild C ht n).mask =
      ((ht_raw_init ht.max_bucket_occupancy_ratio ht.nbuckets : hash_table_t κ υ)).mask ∧
    (ht_raw_rebuild C ht n).max_bucket_occupancy_ratio = ht.max_bucket_occupancy_ratio ∧
    (ht_raw_rebuild C ht n).bucket.length =
      ((ht_raw_init ht.max_bucket_occupancy_ratio ht.nbuckets : hash_table_t κ υ)).bucket.length := by
  unfold ht_raw_rebuild
  exact foldl_frame _
    (fun t i => foldl_frame _ (fun t' it => pushItem_frame C t' it) (bucketAt ht i) t) _ _

/-- The structural facts `ht_raw_init` establishes. -/
theorem ht_raw_init_WFB (r : ℚ) (n : Nat) :
    WFB (ht_raw_init r n : hash_table_t κ υ) ∧
    IsPow2 ((ht_raw_init r n : hash_table_t κ υ)).nbuckets := by
  obtain ⟨hp, hm, -, -, -⟩ := ht_raw_init_spec (κ := κ) (υ := υ) r n
  refine ⟨⟨hm, ?_⟩, hp⟩
  simp [ht_raw_init]

theorem ht_raw_rebuild_WFB (C : HashCtx κ υ) (ht : hash_table_t κ υ) (n : Nat) :
    WFB (ht_raw_rebuild C ht n) ∧ IsPow2 (ht_raw_rebuild C ht n).nbuckets := by
  obtain ⟨h1, h2, h3, h4⟩ := ht_raw_rebuild_frame C ht n
  obtain ⟨⟨wm, wl⟩, wp⟩ :=
    ht_raw_init_WFB (κ := κ) (υ := υ) ht.max_bucket_occupancy_ratio ht.nbuckets
  refine ⟨⟨?_, ?_⟩, ?_⟩
  · rw [h1, h2]; exact wm
  · rw [h4, h1]; exact wl
  · rw [h1]; exact wp

theorem growLoop_WFB (C : HashCtx κ υ) :
    ∀ (fuel : Nat) (ht ht1 : hash_table_t κ υ), growLoop C fuel ht = some ht1 →
      WFB ht ∧ IsPow2 ht.nbuckets → WFB ht1 ∧ IsPow2 ht1.nbuckets := by
  intro fuel
  induction fuel with
  | zero =>
    intro ht ht1 h hw
    simp only [growLoop] at h
    by_cases hc : growCondition ht
    · rw [if_pos hc] at h; cases h
    · rw [if_neg hc] at h; cases h; exact hw
  | succ f ih =>
    intro ht ht1 h hw
    simp only [growLoop] at h
    by_cases hc : growCondition ht
    · rw [if_pos hc] at h
      exact ih _ _ h (ht_raw_rebuild_WFB C ht (ht.nbuckets * 2))
    · rw [if_neg hc] at h; cases h; exact hw

theorem ht_raw_insert_WFB (C : HashCtx κ υ) (fuel : Nat) (ht ht' : hash_table_t κ υ)
    (k : κ) (y : υ) (c : Int) (h : ht_raw_insert C fuel ht k y = some (c, ht'))
    (hw : WFB ht ∧ IsPow2 ht.nbuckets) : WFB ht' ∧ IsPow2 ht'.nbuckets := by
  unfold ht_raw_insert at h
  by_cases hex : ht_raw_exists C ht (some k) (some y) = true
  · rw [if_pos hex] at h; cases h; exact hw
  · rw [if_neg hex] at h
    cases hgl : growLoop C fuel ht with
    | none => rw [hgl] at h; cases h
    | some ht1 =>
      rw [hgl] at h
      obtain ⟨⟨hm, hl⟩, hp⟩ := growLoop_WFB C fuel ht ht1 hgl hw
      cases h
      exact ⟨⟨hm, by simpa using hl⟩, hp⟩

theorem removeBucket_frame (C : HashCtx κ υ) (key : Option κ) (yield : Option υ)
    (ht : hash_table_t κ υ) (h : Nat) :
    (removeBucket C key yield ht h).1.nbuckets = ht.nbuckets ∧
    (removeBucket C key yield ht h).1.mask = ht.mask ∧
    (removeBucket C key yield ht h).1.max_bucket_occupancy_ratio =
      ht.max_bucket_occupancy_ratio ∧
    (removeBucket C key yield ht h).1.bucket.length = ht.bucket.length := by
  simp [removeBucket]

theorem removeLoop_frame (C : HashCtx κ υ) (key : Option κ) (yield : Option υ) :
    ∀ (n : Nat) (ht : hash_table_t κ υ) (h : Nat),
      (removeLoop C key yield ht h n).1.nbuckets = ht.nbuckets ∧
      (removeLoop C key yield ht h n).1.mask = ht.mask ∧
      (removeLoop C key yield ht h n).1.max_bucket_occupancy_ratio =
        ht.max_bucket_occupancy_ratio ∧
      (removeLoop C key yield ht h n).1.bucket.length = ht.bucket.length := by
  intro n
  induction n with
  | zero => intro ht h; exact ⟨rfl, rfl, rfl, rfl⟩
  | succ m ih =>
    intro ht h
    obtain ⟨h1, h2, h3, h4⟩ := removeBucket_frame C key yield ht h
    obtain ⟨g1, g2, g3, g4⟩ := ih (removeBucket C key yield ht h).1 (h + 1)
    exact ⟨g1.trans h1, g2.trans h2, g3.trans h3, g4.trans h4⟩

theorem ht_raw_remove_frame (C : HashCtx κ υ) (ht : hash_table_t κ υ)
    (key : Option κ) (yield : Option υ) :
    (ht_raw_remove C ht key yield).1.nbuckets = ht.nbuckets ∧
    (ht_raw_remove C ht key yield).1.mask = ht.mask ∧
    (ht_raw_remove C ht key yield).1.max_bucket_occupancy_ratio =
      ht.max_bucket_occupancy_ratio ∧
    (ht_raw_remove C ht key yield).1.bucket.length = ht.bucket.length := by
  unfold ht_raw_remove
  exact removeLoop_frame C key yield _ ht _

/-- Table states reachable through the raw API. -/
inductive Reachable (C : HashCtx κ υ) : hash_table_t κ υ → Prop where
  | init : ∀ (r : ℚ) (n : Nat), Reachable C (ht_raw_init r n)
  | insertStep : ∀ {ht ht' : hash_table_t κ υ} {fuel : Nat} {k : κ} {y : υ} {c : Int},
      Reachable C ht → ht_raw_insert C fuel ht k y = some (c, ht') → Reachable C ht'
  | removeStep : ∀ {ht : hash_table_t κ υ} (key : Option κ) (yield : Option υ),
      Reachable C ht → Reachable C (ht_raw_remove C ht key yield).1
  | resetStep : ∀ {ht : hash_table_t κ υ},
      Reachable C ht → Reachable C (ht_raw_reset C ht)
  | rebuildStep : ∀ {ht : hash_table_t κ υ} (n : Nat),
      Reachable C ht → Reachable C (ht_raw_rebuild C ht n)

/-- C9 counterexample: for requested `initialBuckets = 2^31` the largest
power of two `≤` the request is `2^31` itself, but `ht_raw_init` starts its
halving loop at `0x40000000` and returns `2^30`. -/
theorem c9_counterexample :
    ((ht_raw_init (mkRat 1 2) (2 ^ 31) : hash_table_t Nat Nat)).nbuckets ≠ 2 ^ 31 := by
  decide

/-- C9 (amended): `ht_raw_init` rounds `initialBuckets` down to the largest
power of two `≤` the request, floored at 16 and capped at `2^30`; and for
every reachable table state `nbuckets` is a power of two and
`mask = nbuckets - 1` — every operation preserves this. -/
theorem c9_init_rounding_and_invariants (C : HashCtx κ υ) :
    (∀ (r : ℚ) (n : Nat),
      IsPow2 ((ht_raw_init r n : hash_table_t κ υ)).nbuckets ∧
      ((ht_raw_init r n : hash_table_t κ υ)).mask + 1 =
        ((ht_raw_init r n : hash_table_t κ υ)).nbuckets ∧
      (n < 16 → ((ht_raw_init r n : hash_table_t κ υ)).nbuckets = 16) ∧
      (16 ≤ n → n ≤ 2 ^ 30 → ((ht_raw_init r n : hash_table_t κ υ)).nbuckets ≤ n ∧
        n < 2 * ((ht_raw_init r n : hash_table_t κ υ)).nbuckets) ∧
      (2 ^ 30 ≤ n → ((ht_raw_init r n : hash_table_t κ υ)).nbuckets = 2 ^ 30)) ∧
    (∀ ht : hash_table_t κ υ, Reachable C ht →
      IsPow2 ht.nbuckets ∧ ht.mask + 1 = ht.nbuckets) := by
  refine ⟨fun r n => ht_raw_init_spec r n, fun ht hr => ?_⟩
  have main : ∀ ht : hash_table_t κ υ, Reachable C ht → WFB ht ∧ IsPow2 ht.nbuckets := by
    intro ht hr
    induction hr with
    | init r n => exact ht_raw_init_WFB r n
    | insertStep hr hins ih => exact ht_raw_insert_WFB C _ _ _ _ _ _ hins ih
    | removeStep key yield hr ih =>
      obtain ⟨h1, h2, -, h4⟩ := ht_raw_remove_frame C _ key yield
      obtain ⟨⟨wm, wl⟩, wp⟩ := ih
      exact ⟨⟨by rw [h1, h2]; exact wm, by rw [h4, h1]; exact wl⟩, by rw [h1]; exact wp⟩
    | resetStep hr ih =>
      obtain ⟨h1, h2, -, h4⟩ := ht_raw_remove_frame C _ none none
      obtain ⟨⟨wm, wl⟩, wp⟩ := ih
      exact ⟨⟨by rw [ht_raw_reset, h1, h2]; exact wm,
        by rw [ht_raw_reset, h4, h1]; exact wl⟩, by rw [ht_raw_reset, h1]; exact wp⟩
    | rebuildStep n hr ih =>
      obtain ⟨hw, hp⟩ := ht_raw_rebuild_WFB C _ n
      exact ⟨hw, hp⟩
  obtain ⟨⟨wm, -⟩, wp⟩ := main ht hr
  exact ⟨wp, wm⟩

/-- Witness for `c9_init_rounding_and_invariants`: the invariant at the
concretely reachable table `ht_raw_init (1/2) 100`. -/
theorem c9_witness :
    IsPow2 ((ht_raw_init (mkRat 1 2) 100 : hash_table_t Nat Nat)).nbuckets ∧
    ((ht_raw_init (mkRat 1 2) 100 : hash_table_t Nat Nat)).mask + 1 =
      ((ht_raw_init (mkRat 1 2) 100 : hash_table_t Nat Nat)).nbuckets :=
  (c9_init_rounding_and_invariants uctx).2 _ (Reachable.init (mkRat 1 2) 100)

/-! ## C4: duplicate insert is a reported no-op -/

/-- C4: if an item with cmp-equal key and yield already exists, insert
returns `-1` leaving the table untouched; and inserting the same pair twice
succeeds once and then reports "already exists" (again a no-op), provided the
registry comparators see the pair as equal to itself. -/
theorem c4_duplicate_insert_noop (C : HashCtx κ υ) (fuel fuel' : Nat)
    (ht ht' : hash_table_t κ υ) (k : κ) (y : υ)
    (hw : WFB ht ∧ IsPow2 ht.nbuckets)
    (hk : C.keyCmp k k = 0) (hy : C.yieldCmp y y = 0) :
    (ht_raw_exists C ht (some k) (some y) = true →
      ht_raw_insert C fuel ht k y = some (-1, ht)) ∧
    (ht_raw_insert C fuel ht k y = some (0, ht') →
      ht_raw_insert C fuel' ht' k y = some (-1, ht')) := by
  constructor
  · intro hex
    unfold ht_raw_insert
    rw [if_pos hex]
  · intro hins
    have hex' : ht_raw_exists C ht' (some k) (some y) = true := by
      unfold ht_raw_insert at hins
      by_cases hex : ht_raw_exists C ht (some k) (some y) = true
      · rw [if_pos hex] at hins; simp at hins
      · rw [if_neg hex] at hins
        cases hgl : growLoop C fuel ht with
        | none => rw [hgl] at hins; cases hins
        | some ht1 =>
          rw [hgl] at hins
          obtain ⟨⟨hm, hl⟩, -⟩ := growLoop_WFB C fuel ht ht1 hgl hw
          cases hins
          have hlt : C.hash k &&& ht1.mask < ht1.bucket.length := by
            have hle : C.hash k &&& ht1.mask ≤ ht1.mask := Nat.and_le_right
            omega
          unfold ht_raw_exists ht_raw_lookup bucketRange
          simp only [Nat.add_sub_cancel_left, List.range'_one, List.findSome?_cons,
            List.findSome?_nil]
          have hb : bucketAt
              { ht1 with
                bucket := ht1.bucket.set (C.hash k &&& ht1.mask)
                  ({ key := k, yield := y, h := C.hash k &&& ht1.mask } ::
                    bucketAt ht1 (C.hash k &&& ht1.mask)),
                entries := ht1.entries + 1 } (C.hash k &&& ht1.mask) =
              { key := k, yield := y, h := C.hash k &&& ht1.mask } ::
                bucketAt ht1 (C.hash k &&& ht1.mask) := by
            unfold bucketAt
            rw [List.getD_eq_get?, List.get?_set_eq_of_lt _ hlt]
            rfl
          rw [hb]
          unfold findInChain
          rw [List.find?_cons_of_pos]
          · rfl
          · unfold itemMatches matchKey matchYield
            simp [hk, hy]
    unfold ht_raw_insert
    rw [if_pos hex']

/-- The 16-bucket table holding the single pair `(5, 5)`. -/
def c4tbl : hash_table_t Nat Nat := ((ht_raw_insert uctx 1 tbl16 5 5).getD (0, tbl16)).2

/-- Witness for `c4_duplicate_insert_noop`: inserting `(5,5)` into the fresh
16-bucket table succeeds; re-inserting it reports "already exists" with the
table unchanged. -/
theorem c4_witness : ht_raw_insert uctx 1 c4tbl 5 5 = some (-1, c4tbl) :=
  (c4_duplicate_insert_noop uctx 1 1 tbl16 c4tbl 5 5 ⟨by decide, 4, by decide⟩
    (by decide) (by decide)).2 (by decide)

/-! ## C5: remove removes exactly the matching items -/

/-- Number of stored items matching `(key, yield)` (wildcards match all),
summed over the bucket range. -/
def countMatching (C : HashCtx κ υ) (ht : hash_table_t κ υ)
    (key : Option κ) (yield : Option υ) : Nat :=
  ((List.range ht.nbuckets).map
    (fun j => (bucketAt ht j).countP (itemMatches C key yield))).sum

/-- Full characterization of the bucket loop of `ht_raw_remove` over the
range `[h1, h1 + n)`: the returned count, the entries decrement, and the
per-slot effect on the bucket array. -/
theorem removeLoop_spec (C : HashCtx κ υ) (key : Option κ) (yield : Option υ) :
    ∀ (n : Nat) (ht : hash_table_t κ υ) (h1 : Nat),
      (removeLoop C key yield ht h1 n).2 =
        ((List.range' h1 n).map
          (fun j => (bucketAt ht j).countP (itemMatches C key yield))).sum ∧
      (removeLoop C key yield ht h1 n).1.entries =
        ht.entries - (removeLoop C key yield ht h1 n).2 ∧
      ∀ j : Nat, (removeLoop C key yield ht h1 n).1.bucket.get? j =
        if h1 ≤ j ∧ j < h1 + n then
          (ht.bucket.get? j).map (List.filter (fun it => !itemMatches C key yield it))
        else ht.bucket.get? j := by
  intro n
  induction n with
  | zero =>
    intro ht h1
    refine ⟨rfl, by simp [removeLoop], ?_⟩
    intro j
    rw [if_neg (by omega)]
    rfl
  | succ m ih =>
    intro ht h1
    obtain ⟨ihc, ihe, ihb⟩ := ih (removeBucket C key yield ht h1).1 (h1 + 1)
    have hb1 : (removeBucket C key yield ht h1).1.bucket =
        ht.bucket.set h1 ((bucketAt ht h1).filter (fun it => !itemMatches C key yield it)) :=
      rfl
    have he1 : (removeBucket C key yield ht h1).1.entries =
        ht.entries - (bucketAt ht h1).countP (itemMatches C key yield) := rfl
    have hc1 : (removeBucket C key yield ht h1).2 =
        (bucketAt ht h1).countP (itemMatches C key yield) := rfl
    have hsame : ∀ j : Nat, j ≠ h1 →
        bucketAt (removeBucket C key yield ht h1).1 j = bucketAt ht j := by
      intro j hj
      unfold bucketAt
      rw [hb1, List.getD_eq_get?, List.getD_eq_get?, List.get?_set_ne _ _ (fun h => hj h.symm)]
    have hloop : removeLoop C key yield ht h1 (m + 1) =
        ((removeLoop C key yield (removeBucket C key yield ht h1).1 (h1 + 1) m).1,
          (removeBucket C key yield ht h1).2 +
            (removeLoop C key yield (removeBucket C key yield ht h1).1 (h1 + 1) m).2) :=
      rfl
    refine ⟨?_, ?_, ?_⟩
    · rw [hloop, List.range'_succ, List.map_cons, List.sum_cons]
      have : ((List.range' (h1 + 1) m).map
            (fun j => (bucketAt (removeBucket C key yield ht h1).1 j).countP
              (itemMatches C key yield))).sum =
          ((List.range' (h1 + 1) m).map
            (fun j => (bucketAt ht j).countP (itemMatches C key yield))).sum := by
        congr 1
        apply List.map_congr_left
        intro j hj
        obtain ⟨i, hi, rfl⟩ := List.mem_range'.mp hj
        rw [hsame _ (by omega)]
      rw [ihc, this, hc1]
    · rw [hloop]
      show (removeLoop C key yield (removeBucket C key yield ht h1).1 (h1 + 1) m).1.entries =
        ht.entries - ((removeBucket C key yield ht h1).2 +
          (removeLoop C key yield (removeBucket C key yield ht h1).1 (h1 + 1) m).2)
      rw [ihe, he1, hc1, Nat.sub_sub]
    · intro j
      rw [hloop]
      show (removeLoop C key yield (removeBucket C key yield ht h1).1 (h1 + 1) m).1.bucket.get? j = _
      rw [ihb j]
      by_cases hj : j = h1
      · subst hj
        rw [if_neg (by omega), if_pos (by omega), hb1]
        cases hget : ht.bucket.get? j with
        | none =>
          rw [List.get?_set_eq, hget]
          rfl
        | some ch =>
          rw [List.get?_set_eq, hget]
          have : bucketAt ht j = ch := by
            unfold bucketAt
            rw [List.getD_eq_get?, hget]
            rfl
          simp [this]
      · rw [hb1, List.get?_set_ne _ _ (fun h => hj h.symm)]
        by_cases hrange : h1 ≤ j ∧ j < h1 + (m + 1)
        · rw [if_pos hrange, if_pos (by omega)]
        · rw [if_neg hrange, if_neg (by omega)]

/-- Under `WF` and a hash function compatible with the comparator, an item
matching a non-wildcard key can only live in the key's bucket. -/
theorem matching_only_in_home_bucket (C : HashCtx κ υ) (ht : hash_table_t κ υ)
    (k : κ) (yield : Option υ) (hwf : WF C ht)
    (hcompat : ∀ a b, C.keyCmp a b = 0 → C.hash a = C.hash b) :
    ∀ j, j ≠ C.hash k &&& ht.mask → ∀ it ∈ bucketAt ht j,
      itemMatches C (some k) yield it = false := by
  intro j hj it hit
  by_cases hjn : j < ht.nbuckets
  · by_contra htr
    have htrue : itemMatches C (some k) yield it = true := by
      cases hb : itemMatches C (some k) yield it
      · exact absurd hb htr
      · rfl
    have hkm : matchKey C (some k) it.key = true := by
      have h2 := htrue
      unfold itemMatches at h2
      simp only [Bool.and_eq_true] at h2
      exact h2.1
    have h0 : C.keyCmp k it.key = 0 := by
      unfold matchKey at hkm
      exact beq_iff_eq.mp hkm
    have hhome := hwf.2.2 j hjn it hit
    exact hj (by rw [hhome, hcompat k it.key h0])
  · have hlen : ht.bucket.length = ht.nbuckets := hwf.1.2
    have hnil : bucketAt ht j = [] := by
      unfold bucketAt
      rw [List.getD_eq_get?, List.get?_eq_none.mpr (by omega)]
      rfl
    rw [hnil] at hit
    cases hit

/-- A sum over `List.range n` whose terms vanish except at `j < n`. -/
theorem sum_map_range_single (f : Nat → Nat) (n j : Nat) (hj : j < n)
    (h0 : ∀ i < n, i ≠ j → f i = 0) : ((List.range n).map f).sum = f j := by
  induction n with
  | zero => omega
  | succ m ih =>
    rw [List.range_succ, List.map_append, List.sum_append]
    by_cases hjm : j = m
    · subst hjm
      have hz : ((List.range j).map f).sum = 0 := by
        apply List.sum_eq_zero
        intro x hx
        obtain ⟨i, hi, rfl⟩ := List.mem_map.mp hx
        rw [List.mem_range] at hi
        exact h0 i (by omega) (by omega)
      simp [hz]
    · rw [ih (by omega) (fun i hi hij => h0 i (by omega) hij)]
      simp [h0 m (by omega) (Ne.symm hjm)]

/-- Summing a function of the list entries through `getD` over `range
l.length` equals summing over the list. -/
theorem sum_over_range_getD {α : Type} (f : α → Nat) (d : α) :
    ∀ l : List α,
      ((List.range l.length).map (fun j => f (l.getD j d))).sum = (l.map f).sum := by
  intro l
  induction l with
  | nil => rfl
  | cons a l ih =>
    rw [List.length_cons, List.range_succ_eq_map, List.map_cons, List.map_map,
      List.sum_cons, List.map_cons, List.sum_cons]
    have hmap : ((List.range l.length).map ((fun j => f ((a :: l).getD j d)) ∘ Nat.succ)).sum =
        ((List.range l.length).map (fun j => f (l.getD j d))).sum := by
      congr 1
    rw [hmap, ih]
    rfl

/-- C5: `ht_raw_remove` removes exactly the items whose key and yield match
(wildcards match all), returns their count, decrements `entries` by that
count; afterwards a `lookup` for the same key with wildcard yield finds
nothing, and `remove(wildcard, wildcard)` empties the table. -/
theorem c5_remove_matching (C : HashCtx κ υ) (ht : hash_table_t κ υ)
    (key : Option κ) (yield : Option υ) (hwf : WF C ht)
    (hcompat : ∀ a b, C.keyCmp a b = 0 → C.hash a = C.hash b) :
    (ht_raw_remove C ht key yield).2 = countMatching C ht key yield ∧
    (ht_raw_remove C ht key yield).1.bucket =
      ht.bucket.map (List.filter (fun it => !itemMatches C key yield it)) ∧
    (ht_raw_remove C ht key yield).1.entries =
      ht.entries - countMatching C ht key yield ∧
    (yield = none → ht_raw_lookup C (ht_raw_remove C ht key yield).1 key none = none) ∧
    (key = none → yield = none →
      (ht_raw_remove C ht key yield).1.entries = 0 ∧
      ∀ j, bucketAt (ht_raw_remove C ht key yield).1 j = []) := by
  have hlen : ht.bucket.length = ht.nbuckets := hwf.1.2
  have hmask : ht.mask + 1 = ht.nbuckets := hwf.1.1
  -- the loop's parameters for either key shape
  have hmain : (ht_raw_remove C ht key yield).2 = countMatching C ht key yield ∧
      (ht_raw_remove C ht key yield).1.bucket =
        ht.bucket.map (List.filter (fun it => !itemMatches C key yield it)) ∧
      (ht_raw_remove C ht key yield).1.entries =
        ht.entries - countMatching C ht key yield := by
    cases key with
    | none =>
      obtain ⟨hc, he, hb⟩ := removeLoop_spec C none yield ht.nbuckets ht 0
      have hrem : ht_raw_remove C ht none yield = removeLoop C none yield ht 0 ht.nbuckets := by
        unfold ht_raw_remove bucketRange
        rfl
      have hcount : countMatching C ht none yield =
          ((List.range' 0 ht.nbuckets).map
            (fun j => (bucketAt ht j).countP (itemMatches C none yield))).sum := by
        unfold countMatching
        rw [List.range_eq_range']
      refine ⟨by rw [hrem, hc, hcount], ?_, by rw [hrem, he, hc, hcount]⟩
      rw [hrem]
      apply List.ext_get?
      intro j
      rw [hb j, List.get?_map]
      by_cases hjn : j < ht.nbuckets
      · rw [if_pos (by omega)]
      · rw [if_neg (by omega), List.get?_eq_none.mpr (by omega)]
        rfl
    | some k =>
      obtain ⟨hc, he, hb⟩ := removeLoop_spec C (some k) yield 1 ht (C.hash k &&& ht.mask)
      have hrem : ht_raw_remove C ht (some k) yield =
          removeLoop C (some k) yield ht (C.hash k &&& ht.mask) 1 := by
        unfold ht_raw_remove bucketRange
        simp
      have hh1 : C.hash k &&& ht.mask < ht.nbuckets := by
        have : C.hash k &&& ht.mask ≤ ht.mask := Nat.and_le_right
        omega
      have hzero : ∀ i < ht.nbuckets, i ≠ C.hash k &&& ht.mask →
          (bucketAt ht i).countP (itemMatches C (some k) yield) = 0 := by
        intro i hi hne
        rw [List.countP_eq_zero]
        intro it hit
        rw [matching_only_in_home_bucket C ht k yield hwf hcompat i hne it hit]
        exact Bool.false_ne_true
      have hcount : countMatching C ht (some k) yield =
          (bucketAt ht (C.hash k &&& ht.mask)).countP (itemMatches C (some k) yield) := by
        unfold countMatching
        exact sum_map_range_single _ ht.nbuckets _ hh1 hzero
      have hcval : (removeLoop C (some k) yield ht (C.hash k &&& ht.mask) 1).2 =
          (bucketAt ht (C.hash k &&& ht.mask)).countP (itemMatches C (some k) yield) := by
        rw [hc, List.range'_one, List.map_cons, List.map_nil, List.sum_cons, List.sum_nil,
          Nat.add_zero]
      refine ⟨by rw [hrem, hcval, hcount], ?_, by rw [hrem, he, hcval, hcount]⟩
      rw [hrem]
      apply List.ext_get?
      intro j
      rw [hb j, List.get?_map]
      by_cases hjh : j = C.hash k &&& ht.mask
      · rw [if_pos (by omega)]
      · rw [if_neg (by omega)]
        by_cases hjn : j < ht.nbuckets
        · cases hget : ht.bucket.get? j with
          | none => rfl
          | some ch =>
            have hch : bucketAt ht j = ch := by
              unfold bucketAt
              rw [List.getD_eq_get?, hget]
              rfl
            have hfl : ch.filter (fun it => !itemMatches C (some k) yield it) = ch := by
              rw [List.filter_eq_self]
              intro it hit
              rw [matching_only_in_home_bucket C ht k yield hwf hcompat j hjh it
                (by rw [hch]; exact hit)]
              rfl
            exact (congrArg some hfl).symm
        · rw [List.get?_eq_none.mpr (by omega)]
          rfl
  obtain ⟨hcnt, hbuck, hent⟩ := hmain
  refine ⟨hcnt, hbuck, hent, ?_, ?_⟩
  · -- lookup after remove with wildcard yield finds nothing
    rintro rfl
    obtain ⟨hn, hm, -, -⟩ := ht_raw_remove_frame C ht key none
    unfold ht_raw_lookup
    rw [List.findSome?_eq_none_iff]
    intro h hmem
    unfold findInChain
    rw [List.find?_eq_none]
    intro it hit
    have : it ∈ bucketAt (ht_raw_remove C ht key none).1 h := hit
    rw [show bucketAt (ht_raw_remove C ht key none).1 h =
        ((ht_raw_remove C ht key none).1.bucket.get? h).getD [] from
      List.getD_eq_get? _ _ _, hbuck, List.get?_map] at this
    cases hget : ht.bucket.get? h with
    | none =>
      rw [hget] at this
      cases this
    | some ch =>
      rw [hget] at this
      have hmemf : it ∈ ch.filter (fun x => !itemMatches C key none x) := this
      have hfalse := List.of_mem_filter hmemf
      simp only [Bool.not_eq_true'] at hfalse
      intro hcontra
      rw [hfalse] at hcontra
      cases hcontra
  · rintro rfl rfl
    constructor
    · rw [hent]
      have hall : countMatching C ht none none = totalEntries ht := by
        unfold countMatching totalEntries
        have heach : ∀ j, (bucketAt ht j).countP (itemMatches C none none) =
            (bucketAt ht j).length := by
          intro j
          rw [List.countP_eq_length]
          intro a _
          rfl
        calc ((List.range ht.nbuckets).map
              (fun j => (bucketAt ht j).countP (itemMatches C none none))).sum
            = ((List.range ht.nbuckets).map (fun j => (bucketAt ht j).length)).sum := by
              congr 1
              exact List.map_congr_left (fun j _ => heach j)
          _ = ((List.range ht.bucket.length).map
                (fun j => (ht.bucket.getD j []).length)).sum := by rw [hlen]; rfl
          _ = (ht.bucket.map List.length).sum := sum_over_range_getD List.length [] ht.bucket
      rw [hall, ← hwf.2.1, Nat.sub_self]
    · intro j
      rw [show bucketAt (ht_raw_remove C ht none none).1 j =
          ((ht_raw_remove C ht none none).1.bucket.get? j).getD [] from
        List.getD_eq_get? _ _ _, hbuck, List.get?_map]
      cases hget : ht.bucket.get? j with
      | none => rfl
      | some ch =>
        show ch.filter (fun it => !itemMatches C none none it) = []
        rw [List.filter_eq_nil_iff]
        intro a _
        simp [itemMatches, matchKey, matchYield]

/-- `uint32cmp` is an equality test: result 0 means equal values. -/
theorem uint32cmp_eq_zero {a b : Nat} (h : uint32cmp a b = 0) : a = b := by
  unfold uint32cmp at h
  split_ifs at h <;> omega

/-- The `uint32` context hashes cmp-equal keys identically. -/
theorem uctx_hash_compat : ∀ a b : Nat, uctx.keyCmp a b = 0 → uctx.hash a = uctx.hash b := by
  intro a b h
  rw [uint32cmp_eq_zero h]

/-- The 16-bucket table holding key 7 with the three yields 1, 2, 3. -/
def c5ht3 : hash_table_t Nat Nat :=
  (insertSeq uctx 1 tbl16 [(7, 1), (7, 2), (7, 3)]).getD tbl16

/-- Witness for `c5_remove_matching`: after inserting 3 items sharing key 7
with 3 distinct yields, `remove(7, wildcard)` returns 3, `entries` drops to
0, and `lookup(7, wildcard)` afterwards returns not-found. -/
theorem c5_witness :
    (ht_raw_remove uctx c5ht3 (some 7) none).2 = 3 ∧
    (ht_raw_remove uctx c5ht3 (some 7) none).1.entries = 0 ∧
    ht_raw_lookup uctx (ht_raw_remove uctx c5ht3 (some 7) none).1 (some 7) none = none := by
  have h := c5_remove_matching uctx c5ht3 (some 7) none (by decide) uctx_hash_compat
  exact ⟨by decide, by decide, h.2.2.2.1 rfl⟩

end LibHash
